import Mathlib

/-!
Verification of the blog repository's remote commit-metadata fetcher
(GraphQL batched path and REST paginated path) and of its Markdown
pre-processing / HTML-escaping helpers.

The JavaScript source is shallowly embedded:
* network calls become explicit oracle functions passed as parameters
  (one `Except` value per call: `.error` models a thrown fetch error);
* the JS object used as the commit map becomes an association list with
  JS property-write semantics (overwrite in place, append when fresh);
* `Date.prototype.toLocaleString` (a platform function, not repository
  code) becomes an abstract formatting parameter `fmt`;
* a JS loop whose bound can be infinite (`Math.ceil(n / 0)`) is modelled
  with an `Option` result: `none` means the loop never terminates.
-/

namespace BlogSpec

/-- Result of a metadata lookup for one path, as built by
`fetchFileCommitsViaGraphQL` (fields `lastModified`, `commitAuthor`,
`commitMessage`, and `commitId` which the error/sentinel branches omit). -/
structure CommitInfo where
  lastModified : String
  commitAuthor : String
  commitMessage : String
  commitId : Option String
deriving DecidableEq, Repr

/-- One node of `latestCommit.nodes` in the GraphQL response:
`author { name }` (author or name may be absent), `committedDate`,
`message`, `oid`. -/
structure CommitNode where
  authorName : Option String
  committedDate : String
  message : String
  oid : String
deriving DecidableEq, Repr

/-- The aliased blob object in the GraphQL response: `latestCommit` is
`history(first: 1)` and may be absent when the object is not a Blob. -/
structure FileData where
  latestCommit : Option (List CommitNode)
deriving DecidableEq, Repr

/-- Shape of `data` in the GraphQL response: `repository` may be null and
maps each synthesized field alias to an optional blob object. -/
structure GraphQLResp where
  repository : Option (String → Option FileData)

/-- JS `x || d` for `x : string | undefined`: the default is used when `x`
is `undefined` or the empty string (both falsy). -/
def jsOrOpt (x : Option String) (d : String) : String :=
  match x with
  | none => d
  | some s => if s = "" then d else s

/-- JS `x || d` for a string `x`: the default is used when `x` is empty. -/
def jsOrStr (x d : String) : String :=
  if x = "" then d else x

/-- JS `s.substring(0, n)` (for `n ≥ 0`). -/
def jsSubstring (s : String) (n : Nat) : String :=
  String.mk (s.data.take n)

/-- JS `l.slice(s, e)` for non-negative indices. -/
def jsSlice (l : List α) (s e : Nat) : List α :=
  (l.drop s).take (e - s)

/-- The synthesized GraphQL field alias `file_{batch}_{index}`. -/
def fieldName (batch index : Nat) : String :=
  "file_" ++ toString batch ++ "_" ++ toString index

/-- Per-path result resolution of `fetchFileCommitsViaGraphQL` for a batch
whose GraphQL call succeeded: absent aliased field, empty history, or real
data (with the `||` fallbacks of the source). -/
def resolvePath (fmt : String → String) (resp : GraphQLResp)
    (batch index : Nat) : CommitInfo :=
  match resp.repository.bind (fun r => r (fieldName batch index)) with
  | none =>
    { lastModified := "未知时间", commitAuthor := "未知作者",
      commitMessage := "未找到文件数据", commitId := none }
  | some fileData =>
    match fileData.latestCommit with
    | none =>
      { lastModified := "未知时间", commitAuthor := "未知作者",
        commitMessage := "无提交记录", commitId := none }
    | some nodes =>
      match nodes with
      | [] =>
        { lastModified := "未知时间", commitAuthor := "未知作者",
          commitMessage := "无提交记录", commitId := none }
      | commit :: _ =>
        { lastModified := fmt commit.committedDate,
          commitAuthor := jsOrOpt commit.authorName "未知作者",
          commitMessage := jsOrStr commit.message "无提交信息",
          commitId := some commit.oid }

/-- The sentinel entry written for every path of a batch whose GraphQL
call threw: `lastModified = '查询失败'`, unknown author, and a message
embedding `err.message.substring(0, 30)`. -/
def errInfo (e : String) : CommitInfo :=
  { lastModified := "查询失败", commitAuthor := "未知作者",
    commitMessage := "API错误: " ++ jsSubstring e 30 ++ "...",
    commitId := none }

/-- The commit map is a JS object keyed by file path. -/
abbrev CommitMap := List (String × CommitInfo)

/-- JS property write `m[k] = v`: overwrite in place when the key exists,
append otherwise. -/
def objSet (m : CommitMap) (k : String) (v : CommitInfo) : CommitMap :=
  if m.any (fun e => e.1 = k) then
    m.map (fun e => if e.1 = k then (k, v) else e)
  else
    m ++ [(k, v)]

/-- JS property read `m[k]`, as used by callers of the fetcher. -/
def lookupJS (m : CommitMap) (k : String) : Option CommitInfo :=
  (m.find? (fun e => e.1 = k)).map Prod.snd

/-- Processing of one batch's settled GraphQL call: on success each path
is resolved through its alias `file_{batch}_{index}`; on failure every
path of the batch receives the error sentinel. -/
def applyBatch (fmt : String → String) (res : Except String GraphQLResp)
    (batch : Nat) (paths : List String) (m : CommitMap) : CommitMap :=
  match res with
  | .ok resp =>
    paths.enum.foldl
      (fun acc pr => objSet acc pr.2 (resolvePath fmt resp batch pr.1)) m
  | .error e =>
    paths.foldl (fun acc p => objSet acc p (errInfo e)) m

/-- The batch loop of `fetchFileCommitsViaGraphQL`, with the number of
remaining iterations made explicit (`n`), the current batch index
(`batch`), and the accumulated commit map. Each iteration slices
`filePaths` from `batch * batchSize` to
`min ((batch + 1) * batchSize) filePaths.length` and performs one
GraphQL call, modelled by the oracle `net`. -/
def runBatches (fmt : String → String)
    (net : Nat → Except String GraphQLResp)
    (filePaths : List String) (batchSize : Nat) :
    Nat → Nat → CommitMap → CommitMap
  | 0, _, m => m
  | n + 1, batch, m =>
    let startIndex := batch * batchSize
    let endIndex := min ((batch + 1) * batchSize) filePaths.length
    let currentBatchPaths := jsSlice filePaths startIndex endIndex
    runBatches fmt net filePaths batchSize n (batch + 1)
      (applyBatch fmt (net batch) batch currentBatchPaths m)

/-- Number of iterations of the JS loop
`for (batch = 0; batch < Math.ceil(totalFiles / batchSize); batch++)`:
`none` models the infinite bound `Math.ceil(n / 0) = Infinity` for
`n > 0` (with `n = 0` the bound is `NaN` and the loop runs zero times). -/
def numBatches (totalFiles batchSize : Nat) : Option Nat :=
  if batchSize = 0 then
    if totalFiles = 0 then some 0 else none
  else
    some ((totalFiles + batchSize - 1) / batchSize)

/-- Embedding of `fetchFileCommitsViaGraphQL`: `fmt` abstracts the
localized date formatting, `net` the per-batch GraphQL call; the result
is `none` when the batch loop never terminates. -/
def fetchFileCommitsViaGraphQL (fmt : String → String)
    (net : Nat → Except String GraphQLResp)
    (filePaths : List String) (batchSize : Nat) : Option CommitMap :=
  (numBatches filePaths.length batchSize).map
    (fun n => runBatches fmt net filePaths batchSize n 0 [])

/-- The batches produced by the loop of `fetchFileCommitsViaGraphQL` for a
positive batch size, as slices of the path list. -/
def graphQLBatches (filePaths : List String) (batchSize : Nat) :
    List (List String) :=
  (List.range ((filePaths.length + batchSize - 1) / batchSize)).map
    (fun batch =>
      jsSlice filePaths (batch * batchSize)
        (min ((batch + 1) * batchSize) filePaths.length))

section Partition

variable {α : Type}

/-- The slice taken by batch `b` is just `take batchSize` of the
corresponding drop: the `min` with the list length is absorbed by the
clamping of `take`. -/
theorem jsSlice_batch (l : List α) (B b : Nat) :
    jsSlice l (b * B) (min ((b + 1) * B) l.length) =
      (l.drop (b * B)).take B := by
  unfold jsSlice
  rw [List.take_eq_take]
  simp only [List.length_drop]
  have hmul : (b + 1) * B = b * B + B := by ring
  rw [hmul]
  generalize b * B = x
  omega

/-- Chopping `l` into `take B` pieces at offsets `0, B, 2B, …` and
flattening recovers `l`, provided enough pieces are taken. -/
theorem flatten_take_drop (B : Nat) :
    ∀ (n : Nat) (l : List α), l.length ≤ n * B →
      ((List.range n).map (fun b => (l.drop (b * B)).take B)).flatten = l := by
  intro n
  induction n with
  | zero =>
    intro l hl
    simp at hl
    simp [hl]
  | succ n ih =>
    intro l hl
    rw [List.range_succ_eq_map, List.map_cons, List.map_map,
      List.flatten_cons]
    have hcongr :
        (List.range n).map ((fun b => (l.drop (b * B)).take B) ∘ Nat.succ) =
          (List.range n).map (fun b => ((l.drop B).drop (b * B)).take B) := by
      apply List.map_congr_left
      intro b _
      simp only [Function.comp]
      rw [List.drop_drop]
      have h2 : b.succ * B = B + b * B := by
        rw [Nat.succ_mul]; ring
      rw [h2]
    rw [hcongr, ih (l.drop B)]
    · simp
    · have hlen : (l.drop B).length = l.length - B := by simp
      rw [hlen]
      have : (n + 1) * B = n * B + B := by ring
      rw [this] at hl
      omega

/-- The ceiling bound: `L` elements fit into `⌈L / B⌉` batches of `B`. -/
theorem le_ceil_mul (L B : Nat) (hB : 0 < B) :
    L ≤ ((L + B - 1) / B) * B := by
  rcases Nat.eq_zero_or_pos L with hL | hL
  · simp [hL]
  · have hrw : L + B - 1 = (L - 1) + B := by omega
    rw [hrw, Nat.add_div_right _ hB]
    have h1 : B * ((L - 1) / B) + (L - 1) % B = L - 1 := Nat.div_add_mod _ _
    have h2 : (L - 1) % B < B := Nat.mod_lt _ hB
    have h3 : ((L - 1) / B + 1) * B = B * ((L - 1) / B) + B := by ring
    omega

end Partition

/-- C2. For any path list and any positive batch size, the loop of
`fetchFileCommitsViaGraphQL` partitions the list into exactly
`⌈L / B⌉ = (L + B - 1) / B` consecutive batches, each of size at most
`B`, whose in-order concatenation is the original list. -/
theorem graphql_batches_partition (filePaths : List String) (B : Nat)
    (hB : 0 < B) :
    (graphQLBatches filePaths B).length =
        (filePaths.length + B - 1) / B ∧
      (∀ c ∈ graphQLBatches filePaths B, c.length ≤ B) ∧
      (graphQLBatches filePaths B).flatten = filePaths := by
  refine ⟨by simp [graphQLBatches], ?_, ?_⟩
  · intro c hc
    rcases List.mem_map.mp hc with ⟨b, _, rfl⟩
    rw [jsSlice_batch, List.length_take]
    exact min_le_left _ _
  · unfold graphQLBatches
    have hcongr :
        (List.range ((filePaths.length + B - 1) / B)).map
            (fun b => jsSlice filePaths (b * B)
              (min ((b + 1) * B) filePaths.length)) =
          (List.range ((filePaths.length + B - 1) / B)).map
            (fun b => (filePaths.drop (b * B)).take B) := by
      apply List.map_congr_left
      intro b _
      exact jsSlice_batch filePaths B b
    rw [hcongr]
    exact flatten_take_drop B _ filePaths (le_ceil_mul _ _ hB)

/-- Witness for C2 at a concrete input: seven paths, batch size three. -/
theorem graphql_batches_partition_witness :
    0 < 3 ∧
      ((graphQLBatches ["a", "b", "c", "d", "e", "f", "g"] 3).length =
          (7 + 3 - 1) / 3 ∧
        (∀ c ∈ graphQLBatches ["a", "b", "c", "d", "e", "f", "g"] 3,
          c.length ≤ 3) ∧
        (graphQLBatches ["a", "b", "c", "d", "e", "f", "g"] 3).flatten =
          ["a", "b", "c", "d", "e", "f", "g"]) :=
  ⟨by decide,
    graphql_batches_partition ["a", "b", "c", "d", "e", "f", "g"] 3
      (by decide)⟩

/-- One raw commit record of the REST response; its payload is opaque to
the fetcher, which only collects and counts records. -/
structure CommitRecord where
  raw : String
deriving DecidableEq, Repr

/-- One REST response: HTTP status, status text, the decoded JSON array
of commit records, and the optional `Link` header. URL construction
(owner, repo, encoded path, page) is absorbed into the network oracle. -/
structure RestResp where
  status : Nat
  statusText : String
  records : List CommitRecord
  linkHeader : Option String
deriving DecidableEq, Repr

/-- The `response.ok` flag of the Fetch API: status in 200–299. -/
def respOk (r : RestResp) : Bool :=
  200 ≤ r.status && r.status ≤ 299

/-- The error message thrown for a non-ok REST response: 404 and 403 are
distinguished, everything else gets the generic message with the status
text. -/
def restErrMsg (r : RestResp) (path : String) : String :=
  if r.status = 404 then "文件不存在: " ++ path
  else if r.status = 403 then "无权限访问，可能需要登录或Token权限不足"
  else "获取提交记录失败: " ++ r.statusText

/-- Embedding of `getFileCommits`: one fetch (modelled by its settled
result `resp`); a thrown network error propagates, a non-ok status is
mapped to a distinguished error message, otherwise the records are
returned. -/
def getFileCommits (resp : Except String RestResp) (path : String) :
    Except String (List CommitRecord) :=
  match resp with
  | .error e => .error e
  | .ok r => if respOk r then .ok r.records else .error (restErrMsg r path)

/-- The check `linkHeader.includes('rel="next"')` of the source. -/
def hasRelNext (s : String) : Bool :=
  decide ("rel=\"next\"".data <:+: s.data)

/-- JS `linkHeader?.includes('rel="next"') || false`: an absent header
means no next page. -/
def linkHasNext (o : Option String) : Bool :=
  match o with
  | none => false
  | some s => hasRelNext s

/-- The clamp `Math.max(1, Math.min(perPage, 500))` applied by
`batchGetFileCommits` to its page size (the GraphQL path applies no such
clamp to `batchSize`). -/
def safePerPage (perPage : Nat) : Nat :=
  max 1 (min perPage 500)

/-- The per-path pagination loop of `batchGetFileCommits`: pages are
fetched in order starting at `page`; a page with zero records stops the
loop without adding anything, otherwise the records are appended and the
loop continues exactly when the `Link` header contains `rel="next"`.
`fuel` bounds the number of iterations so the function is total: `none`
means the loop was still running after `fuel` pages. -/
def paginateCommits (net1 : Nat → Except String RestResp) (path : String) :
    Nat → Nat → List CommitRecord → Option (Except String (List CommitRecord))
  | 0, _, _ => none
  | fuel + 1, page, acc =>
    match net1 page with
    | .error e => some (.error e)
    | .ok r =>
      if respOk r then
        if r.records.length = 0 then some (.ok acc)
        else
          if linkHasNext r.linkHeader then
            paginateCommits net1 path fuel (page + 1) (acc ++ r.records)
          else some (.ok (acc ++ r.records))
      else some (.error (restErrMsg r path))

/-- One element of the array resolved by `batchGetFileCommits`. -/
structure PathResult where
  path : String
  commits : List CommitRecord
  total : Nat
  error : Option String
deriving DecidableEq, Repr

/-- The per-path task of `batchGetFileCommits`: run the pagination loop
from page 1 and convert a caught error into the `commits: [], total: 0`
entry; a successful run reports the collected commits and their count. -/
def fetchOnePath (net1 : Nat → Except String RestResp) (path : String)
    (fuel : Nat) : Option PathResult :=
  (paginateCommits net1 path fuel 1 []).map
    (fun r =>
      match r with
      | .ok commits =>
        { path := path, commits := commits, total := commits.length,
          error := none }
      | .error e =>
        { path := path, commits := [], total := 0, error := some e })

/-- Sequencing of the independent per-path promises of `Promise.all`:
the batch result exists exactly when every per-path task terminates. -/
def mapOption (f : α → Option β) : List α → Option (List β)
  | [] => some []
  | a :: as =>
    match f a, mapOption f as with
    | some b, some bs => some (b :: bs)
    | _, _ => none

/-- Embedding of `batchGetFileCommits`: the oracle `net` gives the
settled fetch result for a path, the clamped page size actually used,
and a page number; every path runs its own pagination loop and failures
are caught per path. -/
def batchGetFileCommits (net : String → Nat → Nat → Except String RestResp)
    (paths : List String) (perPage fuel : Nat) : Option (List PathResult) :=
  mapOption
    (fun p => fetchOnePath (fun page => net p (safePerPage perPage) page) p fuel)
    paths

/-- C10. With a positive batch size the GraphQL batch loop runs exactly
`⌈L / B⌉ = (L + B - 1) / B` iterations and the fetch terminates; with
`batchSize = 0` and a non-empty path list the loop bound
`Math.ceil(L / 0) = Infinity` makes the fetch diverge — the function
applies no validation to `batchSize`, unlike the REST path, which clamps
`perPage` into `[1, 500]`. -/
theorem graphql_batchSize_termination (fmt : String → String)
    (net : Nat → Except String GraphQLResp) (filePaths : List String) :
    (∀ B, 0 < B →
      numBatches filePaths.length B =
          some ((filePaths.length + B - 1) / B) ∧
        fetchFileCommitsViaGraphQL fmt net filePaths B =
          some (runBatches fmt net filePaths B
            ((filePaths.length + B - 1) / B) 0 [])) ∧
      (filePaths ≠ [] →
        fetchFileCommitsViaGraphQL fmt net filePaths 0 = none) ∧
      (∀ perPage, 1 ≤ safePerPage perPage ∧ safePerPage perPage ≤ 500) := by
  refine ⟨?_, ?_, ?_⟩
  · intro B hB
    have hne : B ≠ 0 := Nat.pos_iff_ne_zero.mp hB
    constructor
    · simp [numBatches, hne]
    · simp [fetchFileCommitsViaGraphQL, numBatches, hne]
  · intro hne
    have hlen : filePaths.length ≠ 0 := by
      simpa [List.length_eq_zero] using hne
    simp [fetchFileCommitsViaGraphQL, numBatches, hlen]
  · intro perPage
    constructor
    · exact le_max_left _ _
    · exact max_le (by norm_num) (min_le_right _ _)

/-- Witness for C10: with two paths, batch size one terminates in two
iterations while batch size zero diverges, and `perPage = 0` is clamped
to `1`. -/
theorem graphql_batchSize_termination_witness :
    numBatches 2 1 = some 2 ∧
      fetchFileCommitsViaGraphQL (fun s => s) (fun _ => .error "down")
          ["a", "b"] 0 = none ∧
      (1 ≤ safePerPage 0 ∧ safePerPage 0 ≤ 500) :=
  ⟨by
    have h :=
      ((graphql_batchSize_termination (fun s => s) (fun _ => .error "down")
        ["a", "b"]).1 1 (by decide)).1
    simpa using h,
    (graphql_batchSize_termination (fun s => s) (fun _ => .error "down")
      ["a", "b"]).2.1 (by decide),
    (graphql_batchSize_termination (fun s => s) (fun _ => .error "down")
      ["a", "b"]).2.2 0⟩

/-- Indexing through `mapOption`: each slot of the result is the image of
the corresponding input element. -/
theorem mapOption_get? (f : α → Option β) :
    ∀ (l : List α) (r : List β), mapOption f l = some r →
      ∀ i, r.get? i = (l.get? i).bind f := by
  intro l
  induction l with
  | nil =>
    intro r hr i
    simp [mapOption] at hr
    subst hr
    simp
  | cons a as ih =>
    intro r hr i
    unfold mapOption at hr
    rcases hfa : f a with _ | b <;> rw [hfa] at hr
    · simp at hr
    · rcases hrest : mapOption f as with _ | bs <;> rw [hrest] at hr
      · simp at hr
      · simp at hr
        subst hr
        cases i with
        | zero => simp [hfa]
        | succ i => simpa using ih bs hrest i

/-- Lengths through `mapOption`. -/
theorem mapOption_length (f : α → Option β) :
    ∀ (l : List α) (r : List β), mapOption f l = some r →
      r.length = l.length := by
  intro l
  induction l with
  | nil =>
    intro r hr
    simp [mapOption] at hr
    simp [hr]
  | cons a as ih =>
    intro r hr
    unfold mapOption at hr
    rcases hfa : f a with _ | b <;> rw [hfa] at hr
    · simp at hr
    · rcases hrest : mapOption f as with _ | bs <;> rw [hrest] at hr
      · simp at hr
      · simp at hr
        subst hr
        simpa using ih bs hrest

/-- C3. The pagination loop of `batchGetFileCommits` starts at page 1 and
stops exactly at a zero-record page or a `Link` header without
`rel="next"`: a non-ok-free run whose first page is ok stops immediately
on zero records; stops after page 1 when the header lacks `rel="next"`;
and when page 1 has records plus a `rel="next"` header and page 2 has
zero records, the entry reports all of page 1's records, their count as
`total`, and a null error. -/
theorem rest_pagination_stops (net1 : Nat → Except String RestResp)
    (path : String) (fuel : Nat) (r1 : RestResp)
    (hnet1 : net1 1 = .ok r1) (hok1 : respOk r1) (hfuel : 2 ≤ fuel) :
    (r1.records = [] →
        fetchOnePath net1 path fuel =
          some { path := path, commits := [], total := 0, error := none }) ∧
      (r1.records ≠ [] → linkHasNext r1.linkHeader = false →
        fetchOnePath net1 path fuel =
          some { path := path, commits := r1.records,
                 total := r1.records.length, error := none }) ∧
      (∀ r2, r1.records ≠ [] → linkHasNext r1.linkHeader = true →
        net1 2 = .ok r2 → respOk r2 → r2.records = [] →
        fetchOnePath net1 path fuel =
          some { path := path, commits := r1.records,
                 total := r1.records.length, error := none }) := by
  obtain ⟨f, rfl⟩ : ∃ f, fuel = f + 2 := ⟨fuel - 2, by omega⟩
  refine ⟨?_, ?_, ?_⟩
  · intro hrec
    simp [fetchOnePath, paginateCommits, hnet1, hok1, hrec]
  · intro hrec hlink
    simp [fetchOnePath, paginateCommits, hnet1, hok1,
      List.length_eq_zero, hrec, hlink]
  · intro r2 hrec hlink hnet2 hok2 hrec2
    simp [fetchOnePath, paginateCommits, hnet1, hok1, hnet2, hok2,
      List.length_eq_zero, hrec, hlink, hrec2]

/-- Witness for C3 at the spec's example: page 1 returns 100 records with
a `rel="next"` link, page 2 returns zero records; the entry has
`total = 100` and no error. -/
theorem rest_pagination_stops_witness :
    fetchOnePath
        (fun page =>
          if page = 1 then
            .ok { status := 200, statusText := "OK",
                  records := List.replicate 100 { raw := "c" },
                  linkHeader := some "<https://x>; rel=\"next\"" }
          else
            .ok { status := 200, statusText := "OK", records := [],
                  linkHeader := none })
        "docs/a.md" 5 =
      some { path := "docs/a.md",
             commits := List.replicate 100 { raw := "c" }, total := 100,
             error := none } := by
  have h :=
    (rest_pagination_stops
        (fun page =>
          if page = 1 then
            .ok { status := 200, statusText := "OK",
                  records := List.replicate 100 { raw := "c" },
                  linkHeader := some "<https://x>; rel=\"next\"" }
          else
            .ok { status := 200, statusText := "OK", records := [],
                  linkHeader := none })
        "docs/a.md" 5
        { status := 200, statusText := "OK",
          records := List.replicate 100 { raw := "c" },
          linkHeader := some "<https://x>; rel=\"next\"" }
        rfl (by decide) (by decide)).2.2
      { status := 200, statusText := "OK", records := [],
        linkHeader := none }
      (by decide) (by decide) rfl (by decide) rfl
  simpa using h

/-- C5. Per-path failure isolation in `batchGetFileCommits`: the result
array has one entry per path in order; a path whose pagination run threw
gets the `commits: [], total: 0` entry carrying the error message; and
the entries of all other paths do not depend on the failing path's
network behaviour at all. -/
theorem rest_batch_failure_isolation
    (net net' : String → Nat → Nat → Except String RestResp)
    (paths : List String) (perPage fuel : Nat) (res : List PathResult)
    (hres : batchGetFileCommits net paths perPage fuel = some res) :
    res.length = paths.length ∧
      (∀ i p e, paths.get? i = some p →
        paginateCommits (fun page => net p (safePerPage perPage) page) p
            fuel 1 [] = some (.error e) →
        res.get? i =
          some { path := p, commits := [], total := 0, error := some e }) ∧
      (∀ q res', batchGetFileCommits net' paths perPage fuel = some res' →
        (∀ p, p ≠ q → ∀ pp page, net p pp page = net' p pp page) →
        ∀ i p, paths.get? i = some p → p ≠ q →
          res.get? i = res'.get? i) := by
  refine ⟨mapOption_length _ _ _ hres, ?_, ?_⟩
  · intro i p e hp hpag
    have h := mapOption_get? _ _ _ hres i
    rw [hp] at h
    simp [fetchOnePath, hpag] at h
    simpa using h
  · intro q res' hres' hagree i p hp hpq
    have h := mapOption_get? _ _ _ hres i
    have h' := mapOption_get? _ _ _ hres' i
    rw [hp] at h h'
    have hfun :
        (fun page => net p (safePerPage perPage) page) =
          (fun page => net' p (safePerPage perPage) page) :=
      funext (fun page => hagree p hpq _ page)
    rw [h, h']
    simp only [Option.some_bind]
    rw [fetchOnePath, fetchOnePath, hfun]

/-- Witness for C5: path "a" suffers a network error, path "b" succeeds;
the array keeps both entries in order and path "a" reports the message. -/
theorem rest_batch_failure_isolation_witness :
    batchGetFileCommits
        (fun p _ _ =>
          if p = "a" then .error "boom"
          else
            .ok { status := 200, statusText := "OK", records := [],
                  linkHeader := none })
        ["a", "b"] 100 3 =
      some [{ path := "a", commits := [], total := 0,
              error := some "boom" },
            { path := "b", commits := [], total := 0, error := none }] ∧
      ([{ path := "a", commits := [], total := 0, error := some "boom" },
        { path := "b", commits := [], total := 0,
          error := none }] : List PathResult).get? 0 =
        some { path := "a", commits := [], total := 0,
               error := some "boom" } :=
  ⟨rfl,
    (rest_batch_failure_isolation
        (fun p _ _ =>
          if p = "a" then .error "boom"
          else
            .ok { status := 200, statusText := "OK", records := [],
                  linkHeader := none })
        (fun p _ _ =>
          if p = "a" then .error "boom"
          else
            .ok { status := 200, statusText := "OK", records := [],
                  linkHeader := none })
        ["a", "b"] 100 3
        [{ path := "a", commits := [], total := 0, error := some "boom" },
          { path := "b", commits := [], total := 0, error := none }]
        rfl).2.1 0 "a" "boom" rfl rfl⟩

/-- C6. Error mapping of `getFileCommits`: HTTP 404 yields the
path-not-found error whose message has the requested path as a suffix
(hence contains it); HTTP 403 yields the forbidden/insufficient-token
error; any other non-2xx status yields the generic error carrying the
response's status text. -/
theorem getFileCommits_error_mapping (path : String) (r : RestResp) :
    (r.status = 404 →
        getFileCommits (.ok r) path = .error ("文件不存在: " ++ path) ∧
          path.data <:+: ("文件不存在: " ++ path).data) ∧
      (r.status = 403 →
        getFileCommits (.ok r) path =
          .error "无权限访问，可能需要登录或Token权限不足") ∧
      (respOk r = false → r.status ≠ 404 → r.status ≠ 403 →
        getFileCommits (.ok r) path =
          .error ("获取提交记录失败: " ++ r.statusText)) := by
  refine ⟨?_, ?_, ?_⟩
  · intro h404
    constructor
    · simp [getFileCommits, respOk, restErrMsg, h404]
    · have hsplit : ("文件不存在: " ++ path).data =
          "文件不存在: ".data ++ path.data := by
        simp
      rw [hsplit]
      exact (List.suffix_append _ _).isInfix
  · intro h403
    simp [getFileCommits, respOk, restErrMsg, h403]
  · intro hok h404 h403
    simp [getFileCommits, hok, restErrMsg, h404, h403]

/-- Witness for C6: a 404 response for path "docs/a.md" produces the
path-not-found message containing that path. -/
theorem getFileCommits_error_mapping_witness :
    getFileCommits
        (.ok { status := 404, statusText := "Not Found", records := [],
               linkHeader := none })
        "docs/a.md" = .error ("文件不存在: " ++ "docs/a.md") ∧
      "docs/a.md".data <:+: ("文件不存在: " ++ "docs/a.md").data :=
  (getFileCommits_error_mapping "docs/a.md"
      { status := 404, statusText := "Not Found", records := [],
        linkHeader := none }).1 rfl

/-- Folding JS property writes over a list of key/value pairs, as the
batch loop does while accumulating the commit map. -/
def insertAll (m : CommitMap) (ps : List (String × CommitInfo)) : CommitMap :=
  ps.foldl (fun acc pr => objSet acc pr.1 pr.2) m

/-- The key/value pairs written by one settled batch, in write order. -/
def batchPairs (fmt : String → String) (res : Except String GraphQLResp)
    (batch : Nat) (paths : List String) : List (String × CommitInfo) :=
  match res with
  | .ok resp =>
    paths.enum.map (fun pr => (pr.2, resolvePath fmt resp batch pr.1))
  | .error e => paths.map (fun p => (p, errInfo e))

/-- The outcome determined for the path at flat position `j` by its own
batch `j / B`, through its own alias `file_(j / B)_(j % B)`: the batch's
error sentinel when that batch's GraphQL call threw, the per-path
resolution otherwise. -/
def outcomeAt (fmt : String → String)
    (net : Nat → Except String GraphQLResp) (B j : Nat) : CommitInfo :=
  match net (j / B) with
  | .ok resp => resolvePath fmt resp (j / B) (j % B)
  | .error e => errInfo e

/-- All pairs written by batches `b0, b0 + 1, …, b0 + n - 1`. -/
def allPairs (fmt : String → String)
    (net : Nat → Except String GraphQLResp) (filePaths : List String)
    (B b0 n : Nat) : List (String × CommitInfo) :=
  ((List.range n).map (fun k =>
    batchPairs fmt (net (b0 + k)) (b0 + k)
      ((filePaths.drop ((b0 + k) * B)).take B))).flatten

/-- Writing an existing key leaves the key list unchanged. -/
theorem objSet_keys_of_mem (m : CommitMap) (k : String) (v : CommitInfo)
    (h : k ∈ m.map Prod.fst) :
    (objSet m k v).map Prod.fst = m.map Prod.fst := by
  have hany : m.any (fun e => e.1 = k) = true := by
    rcases List.mem_map.mp h with ⟨e, he, hek⟩
    exact List.any_eq_true.mpr ⟨e, he, by simpa using hek⟩
  unfold objSet
  rw [if_pos hany, List.map_map]
  apply List.map_congr_left
  intro e _
  by_cases hek : e.1 = k
  · simp [hek]
  · simp [hek]

/-- Writing a fresh key appends the pair. -/
theorem objSet_of_not_mem (m : CommitMap) (k : String) (v : CommitInfo)
    (h : k ∉ m.map Prod.fst) :
    objSet m k v = m ++ [(k, v)] := by
  have hany : m.any (fun e => e.1 = k) = false := by
    rw [List.any_eq_false]
    intro e he
    simp only [decide_eq_true_eq]
    intro hek
    exact h (List.mem_map.mpr ⟨e, he, hek⟩)
  unfold objSet
  rw [if_neg (by simp [hany])]

/-- Key membership after a JS property write. -/
theorem objSet_mem_keys (m : CommitMap) (k p : String) (v : CommitInfo) :
    p ∈ (objSet m k v).map Prod.fst ↔ p ∈ m.map Prod.fst ∨ p = k := by
  by_cases h : k ∈ m.map Prod.fst
  · rw [objSet_keys_of_mem m k v h]
    constructor
    · exact fun hp => Or.inl hp
    · rintro (hp | rfl)
      · exact hp
      · exact h
  · rw [objSet_of_not_mem m k v h]
    simp

/-- JS property writes keep the keys duplicate-free. -/
theorem objSet_nodup_keys (m : CommitMap) (k : String) (v : CommitInfo)
    (h : (m.map Prod.fst).Nodup) :
    ((objSet m k v).map Prod.fst).Nodup := by
  by_cases hk : k ∈ m.map Prod.fst
  · rw [objSet_keys_of_mem m k v hk]
    exact h
  · rw [objSet_of_not_mem m k v hk]
    rw [List.map_append]
    rw [List.nodup_append]
    refine ⟨h, by simp, ?_⟩
    intro a ha hb
    simp at hb
    subst hb
    exact hk ha

/-- Inserting pairwise-fresh keys into a map disjoint from them is plain
concatenation. -/
theorem insertAll_of_disjoint :
    ∀ (ps : List (String × CommitInfo)) (m : CommitMap),
      (ps.map Prod.fst).Nodup →
      (∀ k ∈ ps.map Prod.fst, k ∉ m.map Prod.fst) →
      insertAll m ps = m ++ ps := by
  intro ps
  induction ps with
  | nil => intro m _ _; simp [insertAll]
  | cons pr ps ih =>
    intro m hnd hdis
    obtain ⟨k, v⟩ := pr
    have hk : k ∉ m.map Prod.fst := hdis k (by simp)
    have hstep : objSet m k v = m ++ [(k, v)] := objSet_of_not_mem m k v hk
    have hnd' : (ps.map Prod.fst).Nodup := (List.nodup_cons.mp (by simpa using hnd)).2
    have hknd : k ∉ ps.map Prod.fst := (List.nodup_cons.mp (by simpa using hnd)).1
    have hrec := ih (m ++ [(k, v)]) hnd' ?_
    · show insertAll (objSet m k v) ps = m ++ (k, v) :: ps
      rw [hstep, hrec, List.append_assoc]
      simp
    · intro k' hk'
      rw [List.map_append]
      simp only [List.mem_append]
      rintro (hmem | hmem)
      · exact hdis k' (by simp [hk']) hmem
      · simp at hmem
        rw [hmem] at hk'
        exact hknd hk'

/-- Key membership after inserting a whole pair list. -/
theorem insertAll_mem_keys :
    ∀ (ps : List (String × CommitInfo)) (m : CommitMap) (p : String),
      p ∈ (insertAll m ps).map Prod.fst ↔
        p ∈ m.map Prod.fst ∨ p ∈ ps.map Prod.fst := by
  intro ps
  induction ps with
  | nil => intro m p; simp [insertAll]
  | cons pr ps ih =>
    intro m p
    obtain ⟨k, v⟩ := pr
    show p ∈ (insertAll (objSet m k v) ps).map Prod.fst ↔ _
    rw [ih, objSet_mem_keys]
    simp only [List.map_cons, List.mem_cons]
    tauto

/-- Inserting a pair list keeps the keys duplicate-free. -/
theorem insertAll_nodup_keys :
    ∀ (ps : List (String × CommitInfo)) (m : CommitMap),
      (m.map Prod.fst).Nodup → ((insertAll m ps).map Prod.fst).Nodup := by
  intro ps
  induction ps with
  | nil => intro m h; simpa [insertAll] using h
  | cons pr ps ih =>
    intro m h
    obtain ⟨k, v⟩ := pr
    exact ih (objSet m k v) (objSet_nodup_keys m k v h)

/-- Processing one settled batch is inserting its pairs in order. -/
theorem applyBatch_eq_insertAll (fmt : String → String)
    (res : Except String GraphQLResp) (batch : Nat) (paths : List String)
    (m : CommitMap) :
    applyBatch fmt res batch paths m =
      insertAll m (batchPairs fmt res batch paths) := by
  cases res with
  | ok resp =>
    show _ = List.foldl _ m (paths.enum.map _)
    rw [List.foldl_map]
    rfl
  | error e =>
    show _ = List.foldl _ m (paths.map _)
    rw [List.foldl_map]
    rfl

/-- The batch loop is insertion of all batches' pairs in order. -/
theorem runBatches_eq_insertAll (fmt : String → String)
    (net : Nat → Except String GraphQLResp) (filePaths : List String)
    (B : Nat) :
    ∀ (n b0 : Nat) (m : CommitMap),
      runBatches fmt net filePaths B n b0 m =
        insertAll m (allPairs fmt net filePaths B b0 n) := by
  intro n
  induction n with
  | zero => intro b0 m; simp [runBatches, allPairs, insertAll]
  | succ n ih =>
    intro b0 m
    show runBatches fmt net filePaths B n (b0 + 1) _ = _
    rw [ih (b0 + 1)]
    rw [applyBatch_eq_insertAll]
    have hsplit : allPairs fmt net filePaths B b0 (n + 1) =
        batchPairs fmt (net b0) b0 ((filePaths.drop (b0 * B)).take B) ++
          allPairs fmt net filePaths B (b0 + 1) n := by
      unfold allPairs
      rw [List.range_succ_eq_map, List.map_cons, List.flatten_cons,
        List.map_map]
      have htail : (List.range n).map ((fun k =>
          batchPairs fmt (net (b0 + k)) (b0 + k)
            ((filePaths.drop ((b0 + k) * B)).take B)) ∘ Nat.succ) =
          (List.range n).map (fun k =>
            batchPairs fmt (net (b0 + 1 + k)) (b0 + 1 + k)
              ((filePaths.drop ((b0 + 1 + k) * B)).take B)) := by
        apply List.map_congr_left
        intro k _
        simp only [Function.comp]
        have hidx : b0 + k.succ = b0 + 1 + k := by omega
        rw [hidx]
      rw [htail]
      simp only [Nat.add_zero]
    rw [hsplit]
    unfold insertAll
    rw [List.foldl_append]
    have hslice : jsSlice filePaths (b0 * B)
        (min ((b0 + 1) * B) filePaths.length) =
          (filePaths.drop (b0 * B)).take B := jsSlice_batch filePaths B b0
    rw [hslice]

/-- The keys written by one batch are exactly its paths, in order. -/
theorem batchPairs_keys (fmt : String → String)
    (res : Except String GraphQLResp) (batch : Nat)
    (paths : List String) :
    (batchPairs fmt res batch paths).map Prod.fst = paths := by
  cases res with
  | ok resp =>
    show (paths.enum.map _).map Prod.fst = paths
    rw [List.map_map]
    have : (Prod.fst ∘ fun pr : Nat × String =>
        (pr.2, resolvePath fmt resp batch pr.1)) = Prod.snd := rfl
    rw [this, List.enum_map_snd]
  | error e =>
    show (paths.map _).map Prod.fst = paths
    rw [List.map_map]
    exact List.map_id _

/-- The keys written by all batches from batch 0 are exactly the original
path list, in order. -/
theorem allPairs_keys (fmt : String → String)
    (net : Nat → Except String GraphQLResp) (filePaths : List String)
    (B : Nat) (hB : 0 < B) :
    (allPairs fmt net filePaths B 0
        ((filePaths.length + B - 1) / B)).map Prod.fst = filePaths := by
  unfold allPairs
  rw [List.map_flatten, List.map_map]
  have hcongr : ∀ k ∈ List.range ((filePaths.length + B - 1) / B),
      ((List.map Prod.fst ∘ fun k =>
        batchPairs fmt (net (0 + k)) (0 + k)
          ((filePaths.drop ((0 + k) * B)).take B)) k) =
        (filePaths.drop (k * B)).take B := by
    intro k _
    simp only [Function.comp, Nat.zero_add]
    exact batchPairs_keys _ _ _ _
  rw [List.map_congr_left hcongr]
  exact flatten_take_drop B _ filePaths (le_ceil_mul _ _ hB)

/-- In a map with duplicate-free keys, `find?` at a present key returns
exactly the stored pair. -/
theorem find?_eq_of_nodup_keys :
    ∀ (ps : CommitMap) (k : String) (v : CommitInfo),
      (ps.map Prod.fst).Nodup → (k, v) ∈ ps →
      ps.find? (fun e => e.1 = k) = some (k, v) := by
  intro ps
  induction ps with
  | nil => intro k v _ hmem; simp at hmem
  | cons pr ps ih =>
    intro k v hnd hmem
    obtain ⟨k', v'⟩ := pr
    by_cases hk : k' = k
    · subst hk
      rcases List.mem_cons.mp hmem with heq | htail
      · rw [List.find?_cons_of_pos _ (by simp)]
        exact congrArg some heq.symm
      · exfalso
        have : k' ∈ ps.map Prod.fst :=
          List.mem_map.mpr ⟨(k', v), htail, rfl⟩
        exact (List.nodup_cons.mp (by simpa using hnd)).1 this
    · rw [List.find?_cons_of_neg _ (by simp [hk])]
      rcases List.mem_cons.mp hmem with heq | htail
      · exact absurd (congrArg Prod.fst heq).symm hk
      · exact ih k v (List.nodup_cons.mp (by simpa using hnd)).2 htail

/-- A flat index below the list length lands in a batch index below the
batch count. -/
theorem div_lt_ceil (j L B : Nat) (hj : j < L) (hB : 0 < B) :
    j / B < (L + B - 1) / B := by
  have hL : 1 ≤ L := by omega
  have hrw : L + B - 1 = (L - 1) + B := by omega
  rw [hrw, Nat.add_div_right _ hB]
  have hle : j / B ≤ (L - 1) / B := Nat.div_le_div_right (by omega)
  omega

/-- The pair written for the path at flat position `j` — keyed by that
path, valued by its own batch's outcome — occurs among the written
pairs. -/
theorem pair_mem_allPairs (fmt : String → String)
    (net : Nat → Except String GraphQLResp) (l : List String) (B : Nat)
    (hB : 0 < B) (j : Nat) (hj : j < l.length) :
    (l.get ⟨j, hj⟩, outcomeAt fmt net B j) ∈
      allPairs fmt net l B 0 ((l.length + B - 1) / B) := by
  have hkey : j / B * B + j % B = j := by
    have h := Nat.div_add_mod j B
    rw [Nat.mul_comm B (j / B)] at h
    exact h
  have hmod : j % B < B := Nat.mod_lt _ hB
  have hidx : j % B < ((l.drop (j / B * B)).take B).length := by
    simp only [List.length_take, List.length_drop]
    omega
  have hget : ((l.drop (j / B * B)).take B).get ⟨j % B, hidx⟩ =
      l.get ⟨j, hj⟩ := by
    show ((l.drop (j / B * B)).take B)[j % B] = l[j]
    rw [List.getElem_take, List.getElem_drop]
    congr 1
  have hbn : j / B ∈ List.range ((l.length + B - 1) / B) :=
    List.mem_range.mpr (div_lt_ceil j l.length B hj hB)
  apply List.mem_flatten.mpr
  refine ⟨batchPairs fmt (net (0 + j / B)) (0 + j / B)
      ((l.drop ((0 + j / B) * B)).take B),
    List.mem_map.mpr ⟨j / B, hbn, rfl⟩, ?_⟩
  simp only [Nat.zero_add]
  cases hnet : net (j / B) with
  | error e =>
    have hout : outcomeAt fmt net B j = errInfo e := by
      simp [outcomeAt, hnet]
    rw [hout]
    show _ ∈ List.map _ _
    exact List.mem_map.mpr ⟨l.get ⟨j, hj⟩, hget ▸ List.get_mem _ _ _, rfl⟩
  | ok resp =>
    have hout : outcomeAt fmt net B j =
        resolvePath fmt resp (j / B) (j % B) := by
      simp [outcomeAt, hnet]
    rw [hout]
    show _ ∈ List.map _ _
    have hienum : j % B < ((l.drop (j / B * B)).take B).enum.length := by
      rw [List.enum_length]
      exact hidx
    have henum : ((l.drop (j / B * B)).take B).enum.get ⟨j % B, hienum⟩ =
        (j % B, l.get ⟨j, hj⟩) := by
      show ((l.drop (j / B * B)).take B).enum[j % B] = _
      rw [List.getElem_enum]
      rw [Prod.mk.injEq]
      exact ⟨rfl, hget⟩
    exact List.mem_map.mpr
      ⟨(j % B, l.get ⟨j, hj⟩), henum ▸ List.get_mem _ _ _, rfl⟩

/-- A terminating GraphQL fetch produces exactly the flat pair list of
all batches. -/
theorem fetch_eq_insertAll (fmt : String → String)
    (net : Nat → Except String GraphQLResp) (l : List String) (B : Nat)
    (m : CommitMap) (hB : 0 < B)
    (hm : fetchFileCommitsViaGraphQL fmt net l B = some m) :
    m = insertAll [] (allPairs fmt net l B 0 ((l.length + B - 1) / B)) := by
  have hBne : B ≠ 0 := by omega
  rw [fetchFileCommitsViaGraphQL, numBatches, if_neg hBne] at hm
  have hm2 : runBatches fmt net l B ((l.length + B - 1) / B) 0 [] = m :=
    Option.some.inj hm
  rw [← hm2, runBatches_eq_insertAll]

/-- When the requested paths are distinct, the final commit map is
literally the flat pair list of all batches. -/
theorem fetch_eq_allPairs (fmt : String → String)
    (net : Nat → Except String GraphQLResp) (l : List String) (B : Nat)
    (m : CommitMap) (hB : 0 < B) (hnd : l.Nodup)
    (hm : fetchFileCommitsViaGraphQL fmt net l B = some m) :
    m = allPairs fmt net l B 0 ((l.length + B - 1) / B) := by
  rw [fetch_eq_insertAll fmt net l B m hB hm]
  have hkeys := allPairs_keys fmt net l B hB
  rw [insertAll_of_disjoint _ _ (by rw [hkeys]; exact hnd) (by simp)]
  exact List.nil_append _

/-- Lookup characterization: with distinct paths and a positive batch
size, the entry of the path at position `j` is exactly the outcome
determined by its own batch. -/
theorem lookupJS_fetch (fmt : String → String)
    (net : Nat → Except String GraphQLResp) (l : List String) (B : Nat)
    (m : CommitMap) (hB : 0 < B) (hnd : l.Nodup)
    (hm : fetchFileCommitsViaGraphQL fmt net l B = some m)
    (j : Nat) (hj : j < l.length) :
    lookupJS m (l.get ⟨j, hj⟩) = some (outcomeAt fmt net B j) := by
  rw [fetch_eq_allPairs fmt net l B m hB hnd hm]
  unfold lookupJS
  rw [find?_eq_of_nodup_keys _ _ _
    (by rw [allPairs_keys fmt net l B hB]; exact hnd)
    (pair_mem_allPairs fmt net l B hB j hj)]
  rfl

/-- Key-count characterization: every requested path has exactly one
entry, every other string none, regardless of duplicates in the input. -/
theorem count_keys_fetch (fmt : String → String)
    (net : Nat → Except String GraphQLResp) (l : List String) (B : Nat)
    (m : CommitMap) (hB : 0 < B)
    (hm : fetchFileCommitsViaGraphQL fmt net l B = some m) (p : String) :
    (m.map Prod.fst).count p = if p ∈ l then 1 else 0 := by
  rw [fetch_eq_insertAll fmt net l B m hB hm]
  have hmem : p ∈ (insertAll []
      (allPairs fmt net l B 0 ((l.length + B - 1) / B))).map Prod.fst ↔
      p ∈ l := by
    rw [insertAll_mem_keys, allPairs_keys fmt net l B hB]
    simp
  have hnodup := insertAll_nodup_keys
    (allPairs fmt net l B 0 ((l.length + B - 1) / B)) [] (by simp)
  by_cases hp : p ∈ l
  · rw [if_pos hp]
    exact List.count_eq_one_of_mem hnodup (hmem.mpr hp)
  · rw [if_neg hp]
    exact List.count_eq_zero_of_not_mem (fun h => hp (hmem.mp h))

/-- C1. CommitMap completeness of `fetchFileCommitsViaGraphQL`: whenever
the fetch terminates, the resulting map holds exactly one entry for every
requested path and none for any other key; and for distinct input paths,
the entry of the path at position `j` is exactly the outcome — real data
or sentinel — determined by its own batch `j / B` through its own alias
`file_(j / B)_(j % B)`. -/
theorem graphql_commitMap_complete (fmt : String → String)
    (net : Nat → Except String GraphQLResp) (l : List String) (B : Nat)
    (m : CommitMap) (hB : 0 < B)
    (hm : fetchFileCommitsViaGraphQL fmt net l B = some m) :
    (∀ p : String, (m.map Prod.fst).count p = if p ∈ l then 1 else 0) ∧
      (l.Nodup → ∀ (j : Nat) (hj : j < l.length),
        lookupJS m (l.get ⟨j, hj⟩) = some (outcomeAt fmt net B j)) :=
  ⟨count_keys_fetch fmt net l B m hB hm,
    fun hnd j hj => lookupJS_fetch fmt net l B m hB hnd hm j hj⟩

/-- Commit node served for alias `file_0_0` by the C1 witness oracle. -/
def nodeC1 : CommitNode :=
  { authorName := some "alice", committedDate := "2024-01-02T03:04:05Z",
    message := "init", oid := "oid1" }

/-- Network oracle used by the C1 witness: batch 0 answers with data for
alias `file_0_0` only, batch 1 throws. -/
def netC1 : Nat → Except String GraphQLResp := fun b =>
  if b = 0 then
    .ok { repository := some (fun a =>
      if a = "file_0_0" then some { latestCommit := some [nodeC1] }
      else none) }
  else .error "down"

/-- Commit map computed by the C1 witness run. -/
def mC1 : CommitMap :=
  [("a", { lastModified := "2024-01-02T03:04:05Z",
           commitAuthor := "alice", commitMessage := "init",
           commitId := some "oid1" }),
   ("b", { lastModified := "未知时间", commitAuthor := "未知作者",
           commitMessage := "未找到文件数据", commitId := none }),
   ("c", { lastModified := "查询失败", commitAuthor := "未知作者",
           commitMessage := "API错误: down...", commitId := none })]

/-- Witness for C1: three paths in two batches of size two; the key "b"
appears exactly once and position 2 carries its own batch's outcome. -/
theorem graphql_commitMap_complete_witness :
    (mC1.map Prod.fst).count "b" =
        (if "b" ∈ ["a", "b", "c"] then 1 else 0) ∧
      lookupJS mC1 (["a", "b", "c"].get ⟨2, by decide⟩) =
        some (outcomeAt (fun s => s) netC1 2 2) :=
  ⟨(graphql_commitMap_complete (fun s => s) netC1 ["a", "b", "c"] 2 mC1
      (by decide) rfl).1 "b",
    (graphql_commitMap_complete (fun s => s) netC1 ["a", "b", "c"] 2 mC1
      (by decide) rfl).2 (by decide) 2 (by decide)⟩

/-- Truncation used in the batch-failure sentinel never exceeds the
requested length. -/
theorem jsSubstring_length_le (s : String) (n : Nat) :
    (jsSubstring s n).length ≤ n := by
  show (s.data.take n).length ≤ n
  rw [List.length_take]
  exact min_le_left _ _

/-- C4. Batch-outage isolation in `fetchFileCommitsViaGraphQL`: when the
GraphQL call of batch `b0` throws with message `e`, every path of that
batch gets the error sentinel — `lastModified = '查询失败'`, the
unknown-author sentinel, and a message embedding the error summary
truncated to at most 30 characters — while the entry of every path in
any other batch is the same as under any oracle that agrees outside
batch `b0`. -/
theorem graphql_batch_outage_isolation (fmt : String → String)
    (net net' : Nat → Except String GraphQLResp) (l : List String)
    (B b0 : Nat) (e : String) (m m' : CommitMap) (hB : 0 < B)
    (hnd : l.Nodup) (herr : net b0 = .error e)
    (hagree : ∀ b, b ≠ b0 → net b = net' b)
    (hm : fetchFileCommitsViaGraphQL fmt net l B = some m)
    (hm' : fetchFileCommitsViaGraphQL fmt net' l B = some m') :
    ∀ (j : Nat) (hj : j < l.length),
      (j / B = b0 →
        lookupJS m (l.get ⟨j, hj⟩) = some (errInfo e) ∧
          (errInfo e).lastModified = "查询失败" ∧
          (errInfo e).commitAuthor = "未知作者" ∧
          (errInfo e).commitMessage =
            "API错误: " ++ jsSubstring e 30 ++ "..." ∧
          (jsSubstring e 30).length ≤ 30) ∧
        (j / B ≠ b0 →
          lookupJS m (l.get ⟨j, hj⟩) = lookupJS m' (l.get ⟨j, hj⟩)) := by
  intro j hj
  constructor
  · intro hbatch
    refine ⟨?_, rfl, rfl, rfl, jsSubstring_length_le e 30⟩
    rw [lookupJS_fetch fmt net l B m hB hnd hm j hj]
    have hout : outcomeAt fmt net B j = errInfo e := by
      unfold outcomeAt
      rw [hbatch, herr]
    rw [hout]
  · intro hbatch
    rw [lookupJS_fetch fmt net l B m hB hnd hm j hj,
      lookupJS_fetch fmt net' l B m' hB hnd hm' j hj]
    have hout : outcomeAt fmt net B j = outcomeAt fmt net' B j := by
      unfold outcomeAt
      rw [hagree (j / B) hbatch]
    rw [hout]

/-- Network oracle used by the C4 witness: batch 0 throws, batch 1
answers with an empty repository. -/
def netC4 : Nat → Except String GraphQLResp := fun b =>
  if b = 0 then .error "boom" else .ok { repository := none }

/-- Commit map computed by the C4 witness run. -/
def mC4 : CommitMap :=
  [("a", { lastModified := "查询失败", commitAuthor := "未知作者",
           commitMessage := "API错误: boom...", commitId := none }),
   ("b", { lastModified := "未知时间", commitAuthor := "未知作者",
           commitMessage := "未找到文件数据", commitId := none })]

/-- Witness for C4: two singleton batches; batch 0 throws, so path "a"
carries the query-failed sentinel and path "b" matches the run under the
identical agreeing oracle. -/
theorem graphql_batch_outage_isolation_witness :
    (lookupJS mC4 (["a", "b"].get ⟨0, by decide⟩) =
          some (errInfo "boom") ∧
        (errInfo "boom").lastModified = "查询失败" ∧
        (errInfo "boom").commitAuthor = "未知作者" ∧
        (errInfo "boom").commitMessage =
          "API错误: " ++ jsSubstring "boom" 30 ++ "..." ∧
        (jsSubstring "boom" 30).length ≤ 30) ∧
      lookupJS mC4 (["a", "b"].get ⟨1, by decide⟩) =
        lookupJS mC4 (["a", "b"].get ⟨1, by decide⟩) :=
  ⟨(graphql_batch_outage_isolation (fun s => s) netC4 netC4 ["a", "b"]
        1 0 "boom" mC4 mC4 (by decide) (by decide) rfl
        (fun _ _ => rfl) rfl rfl 0 (by decide)).1 (by decide),
    (graphql_batch_outage_isolation (fun s => s) netC4 netC4 ["a", "b"]
        1 0 "boom" mC4 mC4 (by decide) (by decide) rfl
        (fun _ _ => rfl) rfl rfl 1 (by decide)).2 (by decide)⟩

/-- JS `String.prototype.replace` with a global single-character pattern:
each occurrence of `t` becomes `rep`, every other character stays. -/
def replaceChar (t : Char) (rep : List Char) : List Char → List Char
  | [] => []
  | c :: rest => (if c = t then rep else [c]) ++ replaceChar t rep rest

/-- The five chained replaces of the source's `escapeHtml`, innermost
(`&`) first. -/
def escapeHtmlData (l : List Char) : List Char :=
  replaceChar '\x27' "&#039;".data
    (replaceChar '"' "&quot;".data
      (replaceChar '>' "&gt;".data
        (replaceChar '<' "&lt;".data
          (replaceChar '&' "&amp;".data l))))

/-- Embedding of `escapeHtml`. -/
def escapeHtml (s : String) : String :=
  String.mk (escapeHtmlData s.data)

/-- Per-character view of the full escape chain. -/
def escChar (c : Char) : List Char :=
  if c = '&' then "&amp;".data
  else if c = '<' then "&lt;".data
  else if c = '>' then "&gt;".data
  else if c = '"' then "&quot;".data
  else if c = '\x27' then "&#039;".data
  else [c]

/-- Character-by-character escape, the normal form of the chain. -/
def escList : List Char → List Char
  | [] => []
  | c :: rest => escChar c ++ escList rest

/-- Modelled from the spec: standard HTML-unescaping, decoding the five
entities `escapeHtml` emits in one left-to-right pass; a `&` that starts
no known entity is kept verbatim. This is the spec's comparison function
for the round-trip property, not repository code. -/
def unescapeData (l : List Char) : List Char :=
  match l with
  | [] => []
  | c :: rest =>
    if c = '&' then
      if "amp;".data.isPrefixOf rest then '&' :: unescapeData (rest.drop 4)
      else if "lt;".data.isPrefixOf rest then '<' :: unescapeData (rest.drop 3)
      else if "gt;".data.isPrefixOf rest then '>' :: unescapeData (rest.drop 3)
      else if "quot;".data.isPrefixOf rest then
        '"' :: unescapeData (rest.drop 5)
      else if "#039;".data.isPrefixOf rest then
        '\x27' :: unescapeData (rest.drop 5)
      else c :: unescapeData rest
    else c :: unescapeData rest
termination_by l.length
decreasing_by
  all_goals simp [List.length_drop]
  all_goals omega

/-- Standard HTML-unescaping on strings. -/
def unescapeHtml (s : String) : String :=
  String.mk (unescapeData s.data)

/-- Single-character replacement distributes over concatenation. -/
theorem replaceChar_append (t : Char) (rep : List Char) :
    ∀ (a b : List Char),
      replaceChar t rep (a ++ b) = replaceChar t rep a ++ replaceChar t rep b := by
  intro a b
  induction a with
  | nil => simp [replaceChar]
  | cons c rest ih => simp [replaceChar, ih]

/-- The escape chain distributes over concatenation. -/
theorem escapeHtmlData_append (a b : List Char) :
    escapeHtmlData (a ++ b) = escapeHtmlData a ++ escapeHtmlData b := by
  unfold escapeHtmlData
  rw [replaceChar_append, replaceChar_append, replaceChar_append,
    replaceChar_append, replaceChar_append]

/-- On a single character the five chained replaces act as `escChar`. -/
theorem escapeHtmlData_singleton (c : Char) :
    escapeHtmlData [c] = escChar c := by
  by_cases h1 : c = '&'
  · subst h1; rfl
  · by_cases h2 : c = '<'
    · subst h2; rfl
    · by_cases h3 : c = '>'
      · subst h3; rfl
      · by_cases h4 : c = '"'
        · subst h4; rfl
        · by_cases h5 : c = '\x27'
          · subst h5; rfl
          · simp [escapeHtmlData, replaceChar, escChar, h1, h2, h3, h4, h5]

/-- The sequential escape chain equals the per-character escape. -/
theorem escapeHtmlData_eq_escList :
    ∀ l : List Char, escapeHtmlData l = escList l := by
  intro l
  induction l with
  | nil => rfl
  | cons c rest ih =>
    have hsplit : (c :: rest) = [c] ++ rest := rfl
    rw [hsplit, escapeHtmlData_append, escapeHtmlData_singleton, ih]
    rfl

/-- Unescaping undoes the per-character escape. -/
theorem unescapeData_escList : ∀ l : List Char, unescapeData (escList l) = l := by
  intro l
  induction l with
  | nil => simp [escList, unescapeData]
  | cons c rest ih =>
    by_cases h1 : c = '&'
    · subst h1
      have hs : escList ('&' :: rest) =
          '&' :: 'a' :: 'm' :: 'p' :: ';' :: escList rest := rfl
      rw [hs, unescapeData]
      simp [List.isPrefixOf, ih]
    · by_cases h2 : c = '<'
      · subst h2
        have hs : escList ('<' :: rest) =
            '&' :: 'l' :: 't' :: ';' :: escList rest := rfl
        rw [hs, unescapeData]
        simp [List.isPrefixOf, ih]
      · by_cases h3 : c = '>'
        · subst h3
          have hs : escList ('>' :: rest) =
              '&' :: 'g' :: 't' :: ';' :: escList rest := rfl
          rw [hs, unescapeData]
          simp [List.isPrefixOf, ih]
        · by_cases h4 : c = '"'
          · subst h4
            have hs : escList ('"' :: rest) =
                '&' :: 'q' :: 'u' :: 'o' :: 't' :: ';' :: escList rest := rfl
            rw [hs, unescapeData]
            simp [List.isPrefixOf, ih]
          · by_cases h5 : c = '\x27'
            · subst h5
              have hs : escList ('\x27' :: rest) =
                  '&' :: '#' :: '0' :: '3' :: '9' :: ';' :: escList rest := rfl
              rw [hs, unescapeData]
              simp [List.isPrefixOf, ih]
            · have hs : escList (c :: rest) = c :: escList rest := by
                show escChar c ++ escList rest = _
                simp [escChar, h1, h2, h3, h4, h5]
              rw [hs, unescapeData]
              simp [h1, ih]

/-- C8. Round-trip identity: HTML-escaping any string — in particular one
containing any of the characters the escaper rewrites — and then applying
standard HTML-unescaping yields the original string unchanged. -/
theorem escapeHtml_roundtrip (s : String) :
    unescapeHtml (escapeHtml s) = s := by
  show String.mk (unescapeData (escapeHtmlData s.data)) = s
  rw [escapeHtmlData_eq_escList, unescapeData_escList]

/-- Leftmost occurrence split: `some (pre, post)` when `cs = pre ++ pat ++
post` with `pre` shortest, `none` when `pat` does not occur. This is the
lazy-quantifier search of the source's fence regexes. -/
def splitFirstInfix (pat : List Char) : List Char → Option (List Char × List Char)
  | [] => if pat.isPrefixOf ([] : List Char) then some ([], []) else none
  | c :: rest =>
    if pat.isPrefixOf (c :: rest) then some ([], (c :: rest).drop pat.length)
    else (splitFirstInfix pat rest).map (fun pr => (c :: pr.1, pr.2))

/-- Attempted match of the first legacy-fence regex
`~~~~(lang)\n(code)~~~~` (lang in braces) at the current position:
the opening delimiter, then the lazily shortest lang ending at the first
brace-newline (lang may not span lines, as `.` excludes newlines), then
the lazily shortest code ending at the first `~~~~`. Returns
`(lang, code, rest-after-match)`. -/
def matchFence1 (cs : List Char) : Option (List Char × List Char × List Char) :=
  if "~~~~\x7b".data.isPrefixOf cs then
    match splitFirstInfix "\x7d\n".data (cs.drop 5) with
    | none => none
    | some (lang, afterBrace) =>
      if lang.all (fun c => c != '\n') then
        match splitFirstInfix "~~~~".data afterBrace with
        | none => none
        | some (code, rest) => some (lang, code, rest)
      else none
  else none

/-- Attempted match of the second legacy-fence regex `~~~~\n(code)~~~~`
at the current position. -/
def matchFence2 (cs : List Char) : Option (List Char × List Char) :=
  if "~~~~\n".data.isPrefixOf cs then
    splitFirstInfix "~~~~".data (cs.drop 5)
  else none

/-- Replacement emitted for the first fence form: a language-tagged code
block with the HTML-escaped body. -/
def fenceRepl1 (lang code : List Char) : List Char :=
  "<pre><code class=\"language-".data ++
    (lang ++ ("\">".data ++ (escapeHtmlData code ++ "</code></pre>".data)))

/-- Replacement emitted for the second fence form: an untagged code block
with the HTML-escaped body. -/
def fenceRepl2 (code : List Char) : List Char :=
  "<pre><code>".data ++ (escapeHtmlData code ++ "</code></pre>".data)

/-- Global replacement for the first fence regex: scan left to right,
rewrite each match and continue after it, as `String.replace` with a
global regex does. The fuel only bounds the scan; `cs.length` is always
enough. -/
def replaceFence1 : Nat → List Char → List Char
  | 0, cs => cs
  | _ + 1, [] => []
  | fuel + 1, c :: rest =>
    match matchFence1 (c :: rest) with
    | some (lang, code, after) =>
      fenceRepl1 lang code ++ replaceFence1 fuel after
    | none => c :: replaceFence1 fuel rest

/-- Global replacement for the second fence regex. -/
def replaceFence2 : Nat → List Char → List Char
  | 0, cs => cs
  | _ + 1, [] => []
  | fuel + 1, c :: rest =>
    match matchFence2 (c :: rest) with
    | some (code, after) => fenceRepl2 code ++ replaceFence2 fuel after
    | none => c :: replaceFence2 fuel rest

/-- The legacy-fence pre-pass of `renderMarkdown`: the two chained global
regex replacements of the source, first the braced-language form, then
the plain form. -/
def preprocessContent (s : String) : String :=
  let stage1 := replaceFence1 s.data.length s.data
  String.mk (replaceFence2 stage1.length stage1)

/-- Embedding of `renderMarkdown`: the pre-pass above followed by the
external showdown converter (configured with tables, task lists,
strikethrough and fenced code blocks), abstracted as `makeHtml`. -/
def renderMarkdown (makeHtml : String → String) (markdownContent : String) :
    String :=
  makeHtml (preprocessContent markdownContent)

/-- Scanning an empty text changes nothing. -/
theorem replaceFence1_nil : ∀ fuel, replaceFence1 fuel [] = [] := by
  intro fuel
  cases fuel <;> rfl

/-- Scanning an empty text changes nothing. -/
theorem replaceFence2_nil : ∀ fuel, replaceFence2 fuel [] = [] := by
  intro fuel
  cases fuel <;> rfl

/-- Without the four-tilde opener anywhere the first regex cannot match
at the current position. -/
theorem matchFence1_none (cs : List Char)
    (h : ¬ ("~~~~".data <+: cs)) : matchFence1 cs = none := by
  unfold matchFence1
  rw [if_neg]
  intro habs
  exact h (List.IsPrefix.trans (by decide) (List.isPrefixOf_iff_prefix.mp habs))

/-- Without the four-tilde-newline opener the second regex cannot match
at the current position. -/
theorem matchFence2_none (cs : List Char)
    (h : ¬ ("~~~~\n".data <+: cs)) : matchFence2 cs = none := by
  unfold matchFence2
  rw [if_neg]
  intro habs
  exact h (List.isPrefixOf_iff_prefix.mp habs)

/-- A text with no four-tilde run anywhere is left unchanged by the first
replacement pass. -/
theorem replaceFence1_id :
    ∀ (fuel : Nat) (cs : List Char), ¬ ("~~~~".data <:+: cs) →
      replaceFence1 fuel cs = cs := by
  intro fuel
  induction fuel with
  | zero => intro cs _; rfl
  | succ fuel ih =>
    intro cs hno
    cases cs with
    | nil => rfl
    | cons c rest =>
      have hmatch : matchFence1 (c :: rest) = none :=
        matchFence1_none _ (fun h => hno h.isInfix)
      show (match matchFence1 (c :: rest) with
        | some (lang, code, after) =>
          fenceRepl1 lang code ++ replaceFence1 fuel after
        | none => c :: replaceFence1 fuel rest) = c :: rest
      rw [hmatch]
      rw [ih rest (fun h => hno (List.infix_cons h))]

/-- A text with no four-tilde-newline occurrence is left unchanged by the
second replacement pass. -/
theorem replaceFence2_id :
    ∀ (fuel : Nat) (cs : List Char), ¬ ("~~~~\n".data <:+: cs) →
      replaceFence2 fuel cs = cs := by
  intro fuel
  induction fuel with
  | zero => intro cs _; rfl
  | succ fuel ih =>
    intro cs hno
    cases cs with
    | nil => rfl
    | cons c rest =>
      have hmatch : matchFence2 (c :: rest) = none :=
        matchFence2_none _ (fun h => hno h.isInfix)
      show (match matchFence2 (c :: rest) with
        | some (code, after) => fenceRepl2 code ++ replaceFence2 fuel after
        | none => c :: replaceFence2 fuel rest) = c :: rest
      rw [hmatch]
      rw [ih rest (fun h => hno (List.infix_cons h))]

/-- The leftmost split at a position where the pattern begins. -/
theorem splitFirstInfix_here (pat cs : List Char)
    (h : pat.isPrefixOf cs = true) :
    splitFirstInfix pat cs = some ([], cs.drop pat.length) := by
  cases cs with
  | nil => simp [splitFirstInfix, h]
  | cons c rest => simp [splitFirstInfix, h]

/-- One step of the leftmost-occurrence scan past a non-matching
position. -/
theorem splitFirstInfix_cons (pat : List Char) (c : Char) (rest : List Char)
    (h : pat.isPrefixOf (c :: rest) = false) :
    splitFirstInfix pat (c :: rest) =
      (splitFirstInfix pat rest).map (fun pr => (c :: pr.1, pr.2)) := by
  show (if pat.isPrefixOf (c :: rest) = true then
      some ([], (c :: rest).drop pat.length)
    else (splitFirstInfix pat rest).map (fun pr => (c :: pr.1, pr.2))) = _
  rw [if_neg (by simp only [h]; exact Bool.false_ne_true)]

/-- The leftmost split skips a block free of the pattern's first
character. -/
theorem splitFirstInfix_skip (p0 : Char) (pat' b : List Char) :
    ∀ a : List Char, p0 ∉ a →
      splitFirstInfix (p0 :: pat') (a ++ b) =
        (splitFirstInfix (p0 :: pat') b).map (fun pr => (a ++ pr.1, pr.2)) := by
  intro a
  induction a with
  | nil =>
    intro _
    show splitFirstInfix (p0 :: pat') b = _
    cases splitFirstInfix (p0 :: pat') b <;> rfl
  | cons c a' ih =>
    intro hmem
    have hc : (p0 == c) = false := by
      simp only [beq_eq_false_iff_ne]
      intro habs
      exact hmem (by simp [habs])
    have hpre : (p0 :: pat').isPrefixOf (c :: (a' ++ b)) = false := by
      simp [List.isPrefixOf, hc]
    show splitFirstInfix (p0 :: pat') (c :: (a' ++ b)) = _
    rw [splitFirstInfix_cons _ _ _ hpre]
    rw [ih (fun h => hmem (by simp [h]))]
    rw [Option.map_map]
    cases splitFirstInfix (p0 :: pat') b <;> rfl

/-- When the pattern occurs nowhere inside `cs` (not even straddling into
the terminator), the leftmost split of `cs ++ pat` is exactly at the
terminator. -/
theorem splitFirstInfix_exact (pat : List Char) :
    ∀ cs : List Char,
      (∀ n, n < cs.length → pat.isPrefixOf (cs.drop n ++ pat) = false) →
      splitFirstInfix pat (cs ++ pat) = some (cs, []) := by
  intro cs
  induction cs with
  | nil =>
    intro _
    show splitFirstInfix pat ([] ++ pat) = some ([], [])
    rw [List.nil_append,
      splitFirstInfix_here pat pat
        (List.isPrefixOf_iff_prefix.mpr (List.prefix_refl pat)),
      List.drop_length]
  | cons c rest ih =>
    intro hno
    have hhead : pat.isPrefixOf (c :: (rest ++ pat)) = false := by
      have h0 := hno 0 (by simp)
      simpa only [List.drop_zero, List.cons_append] using h0
    show splitFirstInfix pat (c :: (rest ++ pat)) = _
    rw [splitFirstInfix_cons _ _ _ hhead]
    rw [ih (fun n hn => by simpa using hno (n + 1) (by simpa using hn))]
    rfl

/-- A code body with no four-tilde run and no trailing tilde admits no
occurrence of the closing delimiter before the real terminator. -/
theorem no_premature_close (code : List Char)
    (hnofour : ¬ ("~~~~".data <:+: code))
    (hlast : code.getLast? ≠ some '~') :
    ∀ n, n < code.length →
      "~~~~".data.isPrefixOf (code.drop n ++ "~~~~".data) = false := by
  intro n hn
  by_contra habs
  have hpre : "~~~~".data <+: (code.drop n ++ "~~~~".data) :=
    List.isPrefixOf_iff_prefix.mp (eq_true_of_ne_false habs)
  have htlen : 0 < (code.drop n).length := by
    rw [List.length_drop]
    omega
  have heq : "~~~~".data =
      (code.drop n).take 4 ++ ("~~~~".data).take (4 - (code.drop n).length) := by
    have h1 := List.prefix_iff_eq_take.mp hpre
    rw [List.take_append_eq_append_take] at h1
    exact h1
  by_cases hlen : 4 ≤ (code.drop n).length
  · have hz : 4 - (code.drop n).length = 0 := by omega
    rw [hz, List.take_zero, List.append_nil] at heq
    have hpref : "~~~~".data <+: code.drop n := heq ▸ List.take_prefix _ _
    exact hnofour (List.infix_iff_prefix_suffix.mpr
      ⟨code.drop n, hpref, List.drop_suffix n code⟩)
  · have htake : (code.drop n).take 4 = code.drop n :=
      List.take_of_length_le (by omega)
    rw [htake] at heq
    have hsub : code.drop n <+: "~~~~".data := ⟨_, heq.symm⟩
    have hall : ∀ c ∈ code.drop n, c = '~' := by
      intro c hc
      have hmem : c ∈ "~~~~".data := hsub.subset hc
      have h4 : ∀ c ∈ ("~~~~".data), c = '~' := by decide
      exact h4 c hmem
    have hne : code.drop n ≠ [] := by
      intro h
      rw [h] at htlen
      simp at htlen
    have hlastdrop : (code.drop n).getLast? = some '~' := by
      rw [List.getLast?_eq_getLast _ hne]
      exact congrArg some (hall _ (List.getLast_mem hne))
    have hcode : code = code.take n ++ code.drop n := (List.take_append_drop n code).symm
    have : code.getLast? = some '~' := by
      rw [hcode, List.getLast?_append, hlastdrop]
      rfl
    exact hlast this

/-- The first fence regex matches a well-formed legacy block exactly,
capturing the language and the body. -/
theorem matchFence1_exact (lang code : List Char)
    (hlang_nl : '\n' ∉ lang) (hlang_brace : '\x7d' ∉ lang)
    (hcode : ¬ ("~~~~".data <:+: code))
    (hlast : code.getLast? ≠ some '~') :
    matchFence1 ("~~~~\x7b".data ++
        (lang ++ ("\x7d\n".data ++ (code ++ "~~~~".data)))) =
      some (lang, code, []) := by
  unfold matchFence1
  rw [if_pos (List.isPrefixOf_iff_prefix.mpr (List.prefix_append _ _))]
  have hdrop := List.drop_left "~~~~\x7b".data
    (lang ++ ("\x7d\n".data ++ (code ++ "~~~~".data)))
  rw [show ("~~~~\x7b".data).length = 5 from rfl] at hdrop
  rw [hdrop]
  have hsplit1 : splitFirstInfix "\x7d\n".data
      (lang ++ ("\x7d\n".data ++ (code ++ "~~~~".data))) =
        some (lang, code ++ "~~~~".data) := by
    rw [splitFirstInfix_skip '\x7d' ['\n'] _ lang hlang_brace]
    rw [splitFirstInfix_here _ _
      (List.isPrefixOf_iff_prefix.mpr (List.prefix_append _ _))]
    show some (lang ++ [], _) = _
    rw [List.append_nil]
    rw [List.drop_left]
  rw [hsplit1]
  have hall : lang.all (fun c => c != '\n') = true := by
    rw [List.all_eq_true]
    intro c hc
    simp only [bne_iff_ne, ne_eq]
    intro habs
    exact hlang_nl (habs ▸ hc)
  show (if (lang.all fun c => c != '\n') = true then
      (match splitFirstInfix "~~~~".data (code ++ "~~~~".data) with
        | none => none
        | some (code2, rest) => some (lang, code2, rest))
    else none) = some (lang, code, [])
  rw [if_pos hall,
    splitFirstInfix_exact _ code (no_premature_close code hcode hlast)]

/-- One step of the first global replacement at a matching position. -/
theorem replaceFence1_match (fuel : Nat) (c : Char) (rest : List Char)
    (lang code after : List Char)
    (h : matchFence1 (c :: rest) = some (lang, code, after)) :
    replaceFence1 (fuel + 1) (c :: rest) =
      fenceRepl1 lang code ++ replaceFence1 fuel after := by
  show (match matchFence1 (c :: rest) with
    | some (lang, code, after) =>
      fenceRepl1 lang code ++ replaceFence1 fuel after
    | none => c :: replaceFence1 fuel rest) = _
  rw [h]

/-- Occurrence view of infixes: an infix is a prefix of some drop. -/
theorem infix_iff_exists_drop (pat l : List Char) :
    pat <:+: l ↔ ∃ n, pat <+: l.drop n := by
  constructor
  · intro h
    obtain ⟨t, hpre, hsuf⟩ := List.infix_iff_prefix_suffix.mp h
    exact ⟨l.length - t.length, (List.suffix_iff_eq_drop.mp hsuf) ▸ hpre⟩
  · intro ⟨n, h⟩
    exact List.infix_iff_prefix_suffix.mpr ⟨l.drop n, h, List.drop_suffix n l⟩

/-- An occurrence of a pattern whose first character avoids the left part
of a concatenation lies wholly in the right part. -/
theorem infix_append_right (pat a b : List Char)
    (hhead : ∀ p, pat.head? = some p → p ∉ a) (hne : pat ≠ [])
    (h : pat <:+: a ++ b) : pat <:+: b := by
  obtain ⟨n, hpre⟩ := (infix_iff_exists_drop _ _).mp h
  rw [List.drop_append_eq_append_drop] at hpre
  cases hd : a.drop n with
  | nil =>
    rw [hd, List.nil_append] at hpre
    exact (infix_iff_exists_drop _ _).mpr ⟨_, hpre⟩
  | cons d rest =>
    rw [hd] at hpre
    cases pat with
    | nil => exact absurd rfl hne
    | cons p pat' =>
      have hpd := (List.cons_prefix_cons.mp (by simpa using hpre)).1
      have hdin : d ∈ a := List.drop_subset n a (hd ▸ List.mem_cons_self d rest)
      exact absurd (hpd ▸ hdin) (hhead p rfl)

/-- An occurrence of a tilde/newline pattern cannot straddle into a right
part starting with any other character: it lies in the left or the right
part. -/
theorem infix_append_cases (pat a b : List Char)
    (hpat : ∀ c ∈ pat, c = '~' ∨ c = '\n')
    (d : Char) (hb : b.head? = some d) (hd1 : d ≠ '~') (hd2 : d ≠ '\n')
    (h : pat <:+: a ++ b) : pat <:+: a ∨ pat <:+: b := by
  obtain ⟨n, hpre⟩ := (infix_iff_exists_drop _ _).mp h
  rw [List.drop_append_eq_append_drop] at hpre
  by_cases hn : a.length ≤ n
  · right
    rw [List.drop_eq_nil_of_le hn, List.nil_append] at hpre
    exact (infix_iff_exists_drop _ _).mpr ⟨_, hpre⟩
  · have hnb : n - a.length = 0 := by omega
    rw [hnb, List.drop_zero] at hpre
    by_cases hplen : pat.length ≤ (a.drop n).length
    · left
      have heq := List.prefix_iff_eq_take.mp hpre
      rw [List.take_append_eq_append_take] at heq
      have hz : pat.length - (a.drop n).length = 0 := by omega
      rw [hz, List.take_zero, List.append_nil] at heq
      have hpref : pat <+: a.drop n := heq ▸ List.take_prefix _ _
      exact (infix_iff_exists_drop _ _).mpr ⟨n, hpref⟩
    · exfalso
      have heq := List.prefix_iff_eq_take.mp hpre
      rw [List.take_append_eq_append_take] at heq
      have htake : (a.drop n).take pat.length = a.drop n :=
        List.take_of_length_le (by omega)
      rw [htake] at heq
      cases hbcase : b with
      | nil =>
        rw [hbcase] at hb
        simp at hb
      | cons b0 brest =>
        rw [hbcase] at hb
        have hb0 : b0 = d := by simpa using hb
        have hk : pat.length - (a.drop n).length =
            (pat.length - (a.drop n).length - 1) + 1 := by omega
        rw [hbcase, hk, List.take_succ_cons] at heq
        have hdmem : d ∈ pat := by
          rw [heq, ← hb0]
          exact List.mem_append_right _ (List.mem_cons_self _ _)
        rcases hpat d hdmem with h' | h'
        · exact hd1 h'
        · exact hd2 h'

/-- A tilde inside a character's escape image only comes from a literal
tilde, which escapes to itself. -/
theorem tilde_escChar (c : Char) (h : '~' ∈ escChar c) :
    escChar c = [c] ∧ c = '~' := by
  by_cases h1 : c = '&'
  · subst h1; exact absurd h (by decide)
  · by_cases h2 : c = '<'
    · subst h2; exact absurd h (by decide)
    · by_cases h3 : c = '>'
      · subst h3; exact absurd h (by decide)
      · by_cases h4 : c = '"'
        · subst h4; exact absurd h (by decide)
        · by_cases h5 : c = '\x27'
          · subst h5; exact absurd h (by decide)
          · have hc : escChar c = [c] := by simp [escChar, h1, h2, h3, h4, h5]
            rw [hc] at h
            exact ⟨hc, (List.mem_singleton.mp h).symm⟩

/-- Character escape images are never empty. -/
theorem escChar_ne_nil (c : Char) : escChar c ≠ [] := by
  by_cases h1 : c = '&'
  · subst h1; decide
  · by_cases h2 : c = '<'
    · subst h2; decide
    · by_cases h3 : c = '>'
      · subst h3; decide
      · by_cases h4 : c = '"'
        · subst h4; decide
        · by_cases h5 : c = '\x27'
          · subst h5; decide
          · simp [escChar, h1, h2, h3, h4, h5]

/-- A prefix made of tildes of the escape of a text is a prefix of the
text itself. -/
theorem escList_prefix_transfer :
    ∀ (cs pat : List Char), (∀ c ∈ pat, c = '~') → pat <+: escList cs →
      pat <+: cs := by
  intro cs
  induction cs with
  | nil =>
    intro pat hG h
    rwa [show escList [] = [] from rfl] at h
  | cons c cs ih =>
    intro pat hG h
    cases pat with
    | nil => exact List.nil_prefix
    | cons p pat' =>
      rw [show escList (c :: cs) = escChar c ++ escList cs from rfl] at h
      cases hw : escChar c with
      | nil => exact absurd hw (escChar_ne_nil c)
      | cons d w' =>
        rw [hw] at h
        have hpd := List.cons_prefix_cons.mp (by simpa using h)
        have hp : p = '~' := hG p (by simp)
        have hdt : d = '~' := by rw [← hpd.1]; exact hp
        have hde : '~' ∈ escChar c := by
          rw [hw, ← hdt]
          exact List.mem_cons_self _ _
        obtain ⟨hsing, hctilde⟩ := tilde_escChar c hde
        rw [hw] at hsing
        have hdc : d = c := (List.cons.injEq _ _ _ _ ▸ hsing).1
        have hw' : w' = [] := (List.cons.injEq _ _ _ _ ▸ hsing).2
        have hpat' : pat' <+: escList cs := by
          have := hpd.2
          rwa [hw', List.nil_append] at this
        have hrec := ih pat' (fun x hx => hG x (by simp [hx])) hpat'
        exact List.cons_prefix_cons.mpr ⟨by rw [hp, hctilde], hrec⟩

/-- An all-tilde occurrence inside the escape of a text corresponds to an
occurrence inside the text itself: escaping introduces no new tildes. -/
theorem escList_infix_transfer :
    ∀ (cs pat : List Char), (∀ c ∈ pat, c = '~') → pat <:+: escList cs →
      pat <:+: cs := by
  intro cs
  induction cs with
  | nil =>
    intro pat hG h
    rwa [show escList [] = [] from rfl] at h
  | cons c cs ih =>
    intro pat hG h
    rw [show escList (c :: cs) = escChar c ++ escList cs from rfl] at h
    obtain ⟨n, hpre⟩ := (infix_iff_exists_drop _ _).mp h
    rw [List.drop_append_eq_append_drop] at hpre
    cases hd : (escChar c).drop n with
    | nil =>
      rw [hd, List.nil_append] at hpre
      have hrec : pat <:+: escList cs :=
        (infix_iff_exists_drop _ _).mpr ⟨_, hpre⟩
      exact List.infix_cons (ih pat hG hrec)
    | cons d w₂ =>
      rw [hd] at hpre
      cases pat with
      | nil => simp
      | cons p pat' =>
        have hpd := List.cons_prefix_cons.mp (by simpa using hpre)
        have hp : p = '~' := hG p (by simp)
        have hdt : d = '~' := by rw [← hpd.1]; exact hp
        have hdmem : d ∈ escChar c :=
          List.drop_subset n _ (hd ▸ List.mem_cons_self d w₂)
        obtain ⟨hsing, hctilde⟩ := tilde_escChar c (hdt ▸ hdmem)
        rw [hsing] at hd
        have hn0 : n = 0 := by
          cases n with
          | zero => rfl
          | succ k =>
            exfalso
            have : ([c] : List Char).drop (k + 1) = [] := by simp
            rw [this] at hd
            exact List.noConfusion hd
        subst hn0
        rw [List.drop_zero] at hd
        have hw2 : w₂ = [] := by
          injection hd with h1 h2
          exact h2.symm
        have hpat' : pat' <+: escList cs := by
          have h2 := hpd.2
          rw [hw2, List.nil_append] at h2
          simpa using h2
        have hrec := escList_prefix_transfer cs pat'
          (fun x hx => hG x (by simp [hx])) hpat'
        have hpc : p = c := by rw [hp, hctilde]
        exact (List.cons_prefix_cons.mpr ⟨hpc, hrec⟩).isInfix

/-- The rewritten block for the first fence form contains no
four-tilde-newline occurrence, so the second pass leaves it alone: the
fixed markup has no tildes, the language may not contain newlines, and
the escaped body contains a four-tilde run only if the original body
does. -/
theorem no_fence2_in_repl1 (lang code : List Char) (hlang_nl : '\n' ∉ lang)
    (hcode : ¬ ("~~~~".data <:+: code)) :
    ¬ ("~~~~\n".data <:+: fenceRepl1 lang code) := by
  intro h
  have hhead5 : ("~~~~\n".data).head? = some '~' := by decide
  have h0 : "~~~~\n".data <:+:
      ("<pre><code class=\"language-".data ++
        (lang ++ ("\">".data ++
          (escapeHtmlData code ++ "</code></pre>".data)))) := h
  have h1 := infix_append_right "~~~~\n".data _ _
    (fun p hp => by
      rw [hhead5] at hp
      have hp' : p = '~' := (Option.some.inj hp).symm
      subst hp'
      decide)
    (by decide) h0
  have h2 := infix_append_cases "~~~~\n".data lang
    ("\">".data ++ (escapeHtmlData code ++ "</code></pre>".data))
    (by decide) '"' rfl (by decide) (by decide) h1
  rcases h2 with h2 | h2
  · exact hlang_nl (h2.subset (by decide))
  · have h3 := infix_append_right "~~~~\n".data "\">".data _
      (fun p hp => by
        rw [hhead5] at hp
        have hp' : p = '~' := (Option.some.inj hp).symm
        subst hp'
        decide)
      (by decide) h2
    have h4 := infix_append_cases "~~~~\n".data (escapeHtmlData code)
      "</code></pre>".data (by decide) '<' rfl (by decide) (by decide) h3
    rcases h4 with h4 | h4
    · have h44 : "~~~~".data <:+: escapeHtmlData code :=
        List.IsInfix.trans
          (List.IsPrefix.isInfix (by decide : "~~~~".data <+: "~~~~\n".data))
          h4
      rw [escapeHtmlData_eq_escList] at h44
      exact hcode (escList_infix_transfer code _ (by decide) h44)
    · exact absurd (h4.subset (by decide : '~' ∈ "~~~~\n".data)) (by decide)

/-- Unfolding of the pre-pass as the two chained scans. -/
theorem preprocessContent_eq (s : String) :
    preprocessContent s = String.mk (replaceFence2
      (replaceFence1 s.data.length s.data).length
      (replaceFence1 s.data.length s.data)) := rfl

/-- First global replacement of a text that is exactly one match. -/
theorem replaceFence1_whole (fuel : Nat) (cs lang code : List Char)
    (h : matchFence1 cs = some (lang, code, [])) :
    replaceFence1 (fuel + 1) cs = fenceRepl1 lang code := by
  cases cs with
  | nil =>
    exfalso
    have hnone : matchFence1 [] = none := rfl
    rw [hnone] at h
    exact Option.noConfusion h
  | cons c rest =>
    rw [replaceFence1_match fuel c rest lang code [] h, replaceFence1_nil,
      List.append_nil]

/-- The pre-pass is the identity on texts with no four-tilde run. -/
theorem preprocessContent_id (s : String)
    (hnof : ¬ ("~~~~".data <:+: s.data)) : preprocessContent s = s := by
  rw [preprocessContent_eq]
  rw [replaceFence1_id s.data.length s.data hnof]
  rw [replaceFence2_id s.data.length s.data
    (fun h => hnof (List.IsInfix.trans
      (List.IsPrefix.isInfix (by decide : "~~~~".data <+: "~~~~\n".data)) h))]

/-- The pre-pass rewrites a well-formed legacy block into exactly the
tagged, escaped code block and nothing else. -/
theorem preprocess_block (lang code : List Char) (hlang_nl : '\n' ∉ lang)
    (hlang_brace : '\x7d' ∉ lang) (hcode : ¬ ("~~~~".data <:+: code))
    (hlast : code.getLast? ≠ some '~') :
    preprocessContent (String.mk ("~~~~\x7b".data ++
        (lang ++ ("\x7d\n".data ++ (code ++ "~~~~".data))))) =
      String.mk (fenceRepl1 lang code) := by
  rw [preprocessContent_eq]
  have hdata : (String.mk ("~~~~\x7b".data ++
      (lang ++ ("\x7d\n".data ++ (code ++ "~~~~".data))))).data =
        "~~~~\x7b".data ++
          (lang ++ ("\x7d\n".data ++ (code ++ "~~~~".data))) := rfl
  rw [hdata]
  obtain ⟨k, hk⟩ : ∃ k, ("~~~~\x7b".data ++
      (lang ++ ("\x7d\n".data ++ (code ++ "~~~~".data)))).length = k + 1 := by
    refine ⟨("~~~~\x7b".data ++
      (lang ++ ("\x7d\n".data ++ (code ++ "~~~~".data)))).length - 1, ?_⟩
    have hpos : 0 < ("~~~~\x7b".data ++
        (lang ++ ("\x7d\n".data ++ (code ++ "~~~~".data)))).length := by
      simp
    omega
  rw [hk]
  rw [replaceFence1_whole k _ lang code
    (matchFence1_exact lang code hlang_nl hlang_brace hcode hlast)]
  rw [replaceFence2_id _ _ (no_fence2_in_repl1 lang code hlang_nl hcode)]

/-- C7. For any legacy fenced block `~~~~(lang)\n(code)~~~~` (the
language in braces, the language free of newlines and closing braces,
the body free of four-tilde runs and not ending in a tilde — otherwise
the text parses as a different block), the pre-pass of `renderMarkdown`
rewrites the block into exactly one `pre`/`code` element tagged with
`language-(lang)` whose text content is the HTML-escaped body; that
element occurs in the pre-processed output handed to the converter, and
HTML-unescaping its text content yields the body exactly. -/
theorem renderMarkdown_legacy_fence (makeHtml : String → String)
    (lang code : String)
    (hlang_nl : '\n' ∉ lang.data) (hlang_brace : '\x7d' ∉ lang.data)
    (hcode : ¬ ("~~~~".data <:+: code.data))
    (hlast : code.data.getLast? ≠ some '~') :
    preprocessContent ("~~~~\x7b" ++ lang ++ "\x7d\n" ++ code ++ "~~~~") =
        String.mk (fenceRepl1 lang.data code.data) ∧
      ("<code class=\"language-".data ++
          (lang.data ++ ("\">".data ++
            (escapeHtmlData code.data ++ "</code>".data)))) <:+:
        (preprocessContent
          ("~~~~\x7b" ++ lang ++ "\x7d\n" ++ code ++ "~~~~")).data ∧
      renderMarkdown makeHtml
          ("~~~~\x7b" ++ lang ++ "\x7d\n" ++ code ++ "~~~~") =
        makeHtml (String.mk (fenceRepl1 lang.data code.data)) ∧
      unescapeData (escapeHtmlData code.data) = code.data := by
  have hinput : ("~~~~\x7b" ++ lang ++ "\x7d\n" ++ code ++ "~~~~" : String) =
      String.mk ("~~~~\x7b".data ++
        (lang.data ++ ("\x7d\n".data ++ (code.data ++ "~~~~".data)))) := by
    apply String.ext
    simp [String.data_append]
  have hpre : preprocessContent
      ("~~~~\x7b" ++ lang ++ "\x7d\n" ++ code ++ "~~~~") =
        String.mk (fenceRepl1 lang.data code.data) := by
    rw [hinput]
    exact preprocess_block lang.data code.data hlang_nl hlang_brace hcode
      hlast
  have hsplitpre : "<pre><code class=\"language-".data =
      "<pre>".data ++ "<code class=\"language-".data := by decide
  have hsplitpost : ("</code></pre>".data : List Char) =
      "</code>".data ++ "</pre>".data := by decide
  refine ⟨hpre, ?_, ?_, ?_⟩
  · rw [hpre]
    refine ⟨"<pre>".data, "</pre>".data, ?_⟩
    show "<pre>".data ++ _ ++ "</pre>".data = fenceRepl1 lang.data code.data
    rw [fenceRepl1, hsplitpre, hsplitpost]
    simp [List.append_assoc]
  · show makeHtml (preprocessContent _) = _
    rw [hpre]
  · rw [escapeHtmlData_eq_escList]
    exact unescapeData_escList code.data

/-- Witness for C7: language `js`, body `a<b`, identity converter. -/
theorem renderMarkdown_legacy_fence_witness :
    preprocessContent ("~~~~\x7b" ++ "js" ++ "\x7d\n" ++ "a<b" ++ "~~~~") =
        String.mk (fenceRepl1 "js".data "a<b".data) ∧
      unescapeData (escapeHtmlData "a<b".data) = "a<b".data :=
  ⟨(renderMarkdown_legacy_fence (fun s => s) "js" "a<b" (by decide)
      (by decide) (by decide) (by decide)).1,
    (renderMarkdown_legacy_fence (fun s => s) "js" "a<b" (by decide)
      (by decide) (by decide) (by decide)).2.2.2⟩

/-- C9. On inputs with no four-tilde run (hence no legacy fence) the
pre-pass is the identity, so `renderMarkdown` is exactly the external
converter: it is a pure function of its input (equal inputs give
byte-identical output), and it is idempotent at such an input whenever
the converter itself is idempotent and produces fence-free output — the
repository's own pre-pass adds no further obstruction to idempotence. -/
theorem renderMarkdown_pure (makeHtml : String → String) (s : String)
    (hnof : ¬ ("~~~~".data <:+: s.data)) :
    preprocessContent s = s ∧
      renderMarkdown makeHtml s = makeHtml s ∧
      (∀ t u : String, t = u →
        renderMarkdown makeHtml t = renderMarkdown makeHtml u) ∧
      ((∀ u, makeHtml (makeHtml u) = makeHtml u) →
        (∀ u, ¬ ("~~~~".data <:+: (makeHtml u).data)) →
        renderMarkdown makeHtml (renderMarkdown makeHtml s) =
          renderMarkdown makeHtml s) := by
  have hid := preprocessContent_id s hnof
  refine ⟨hid, ?_, ?_, ?_⟩
  · show makeHtml (preprocessContent s) = makeHtml s
    rw [hid]
  · intro t u h
    rw [h]
  · intro hidem hpres
    show makeHtml (preprocessContent (makeHtml (preprocessContent s))) = _
    rw [hid, preprocessContent_id (makeHtml s) (hpres s)]
    show makeHtml (makeHtml s) = makeHtml (preprocessContent s)
    rw [hidem s, hid]

/-- Witness for C9: a fence-free input and a constant (hence idempotent,
fence-free) converter. -/
theorem renderMarkdown_pure_witness :
    preprocessContent "hello" = "hello" ∧
      renderMarkdown (fun _ => "x") (renderMarkdown (fun _ => "x") "hello") =
        renderMarkdown (fun _ => "x") "hello" :=
  ⟨(renderMarkdown_pure (fun _ => "x") "hello" (by decide)).1,
    (renderMarkdown_pure (fun _ => "x") "hello" (by decide)).2.2.2
      (fun _ => rfl) (fun _ => by decide)⟩

end BlogSpec
